import Mathlib

/-!
Verification of the glyph vectorization and geometry-caching subsystem of
the kule 2D rendering toolkit (`src/font.rs`, with the drawing glue in
`src/draw.rs`).

The Rust code is shallowly embedded: pixels are pairs of naturals, the
coverage bitmap is a byte list with explicit width/height, `HashSet` /
`HashMap` state becomes lists (insertion order preserved) and function
maps, and the two `loop`/`while` constructs of `GlyphCache::vectorize`
become fuel-indexed recursions whose fuel sufficiency is proved.  The
external collaborators that are not part of the repository's sources
(the fontdue rasterizer/parser and the lyon fill tessellator) are either
abstracted as parameters or modelled from the specification, as noted on
each definition.
-/

namespace Kule

/-- A pixel coordinate, the embedding of the Rust `[usize; 2]` with
`p.1` the x component and `p.2` the y component. -/
abbrev Pixel := Nat × Nat

/-- Embedding of `adj_neighbors_array` from `src/font.rs`: the four
axis-aligned neighbors `[l, r, t, b]` of `p`, `none` when out of bounds.
Bounds checks are exactly the source's `x > 0`, `x < width - 1`,
`y > 0`, `y < height - 1` (with truncated `Nat` subtraction mirroring
`usize` for the in-range pixels this is applied to). -/
def adj_neighbors_array (p : Pixel) (width height : Nat) :
    Option Pixel × Option Pixel × Option Pixel × Option Pixel :=
  let l := if 0 < p.1 then some (p.1 - 1, p.2) else none
  let r := if p.1 < width - 1 then some (p.1 + 1, p.2) else none
  let t := if 0 < p.2 then some (p.1, p.2 - 1) else none
  let b := if p.2 < height - 1 then some (p.1, p.2 + 1) else none
  (l, r, t, b)

/-- Embedding of `adj_neighbors` from `src/font.rs`: the iterator
`once(l).chain(once(r)).chain(once(t)).chain(once(b))` as a list. -/
def adj_neighbors (p : Pixel) (width height : Nat) : List (Option Pixel) :=
  let (l, r, t, b) := adj_neighbors_array p width height
  [l, r, t, b]

/-- The source's `x1y2` closure: combine the x of the first pixel with
the y of the second. -/
def x1y2 (q : Pixel × Pixel) : Pixel := (q.1.1, q.2.2)

/-- Rust's `Option::zip`: `some (a, b)` when both options are `some`. -/
def optZip (a : Option Pixel) (b : Option Pixel) : Option (Pixel × Pixel) :=
  a.bind fun x => b.map fun y => (x, y)

/-- Embedding of `neighbors` from `src/font.rs`: the four axis-aligned
neighbors followed by the four diagonals, each diagonal built by
`Option.zip` of the two adjacent axis neighbors and `x1y2` (so a
diagonal is `none` exactly when either adjacent axis neighbor is). -/
def neighbors (p : Pixel) (width height : Nat) : List (Option Pixel) :=
  let (l, r, t, b) := adj_neighbors_array p width height
  let tl := (optZip l t).map x1y2
  let tr := (optZip r t).map x1y2
  let bl := (optZip l b).map x1y2
  let br := (optZip r b).map x1y2
  [l, r, t, b, tl, tr, bl, br]

/-- A coverage bitmap: width, height and one coverage byte per pixel,
row-major, as handed to `GlyphCache::vectorize` by the rasterizer. -/
structure Bitmap where
  width : Nat
  height : Nat
  bytes : List Nat
  deriving Repr, DecidableEq

/-- The source's `get` closure: `bytes[y * metrics.width + x] > 0`. -/
def getPx (bmp : Bitmap) (p : Pixel) : Bool :=
  0 < bmp.bytes.getD (p.2 * bmp.width + p.1) 0

/-- The source's per-neighbor emptiness test
`n.map_or(true, |n| !get(n))`: out of bounds counts as empty. -/
def isEmptySlot (bmp : Bitmap) (n : Option Pixel) : Bool :=
  n.elim true (fun q => ! getPx bmp q)

/-- `empty_count` from `GlyphCache::vectorize`: how many of the 8
neighbor slots of `p` are empty (out of bounds or off). -/
def empty_count (bmp : Bitmap) (p : Pixel) : Nat :=
  (neighbors p bmp.width bmp.height).countP (isEmptySlot bmp)

/-- `empty_adj_count` from `GlyphCache::vectorize`: how many of the 4
axis-aligned neighbor slots of `p` are empty (out of bounds or off). -/
def empty_adj_count (bmp : Bitmap) (p : Pixel) : Nat :=
  (adj_neighbors p bmp.width bmp.height).countP (isEmptySlot bmp)

/-- The boundary classification test of `GlyphCache::vectorize`:
`2 <= empty_count && empty_count <= 4 || 1 == empty_adj_count`. -/
def edgeCond (bmp : Bitmap) (p : Pixel) : Prop :=
  (2 ≤ empty_count bmp p ∧ empty_count bmp p ≤ 4) ∨ empty_adj_count bmp p = 1

instance (bmp : Bitmap) (p : Pixel) : Decidable (edgeCond bmp p) := by
  unfold edgeCond; infer_instance

/-- The pixel of flat byte index `i`: the source's
`[i % metrics.width, i / metrics.width]`. -/
def pix (width i : Nat) : Pixel := (i % width, i / width)

/-- One iteration of the edge-collection loop of
`GlyphCache::vectorize`: skip the byte if it is zero or its pixel was
already collected, otherwise collect the pixel when the boundary
classification holds.  The `HashSet` of collected edge pixels is
modelled as a duplicate-free list in insertion order. -/
def edgeStep (bmp : Bitmap) (acc : List Pixel) (i : Nat) : List Pixel :=
  let p := pix bmp.width i
  if bmp.bytes.getD i 0 = 0 ∨ p ∈ acc then acc
  else if edgeCond bmp p then acc ++ [p] else acc

/-- The edge-collection phase of `GlyphCache::vectorize`: fold
`edgeStep` over all byte indices. -/
def edgePixels (bmp : Bitmap) : List Pixel :=
  (List.range bmp.bytes.length).foldl (edgeStep bmp) []

/-! ### Spec-side neighbor counts

The specification describes the neighborhood by coordinate offsets:
a neighbor at offset `(dx, dy)` is empty when it is out of bounds or
its coverage byte is zero.  These definitions follow the spec's words
and are compared with the source's `empty_count` / `empty_adj_count`. -/

/-- Spec-side emptiness of the neighbor of `p` at offset `(dx, dy)`:
out-of-bounds counts as empty, otherwise the pixel must be off. -/
def offNeighbor (bmp : Bitmap) (p : Pixel) (dx dy : Int) : Bool :=
  let qx : Int := (p.1 : Int) + dx
  let qy : Int := (p.2 : Int) + dy
  if 0 ≤ qx ∧ qx < (bmp.width : Int) ∧ 0 ≤ qy ∧ qy < (bmp.height : Int) then
    ! getPx bmp (qx.toNat, qy.toNat)
  else true

/-- The eight full-neighborhood offsets N, S, E, W, NE, NW, SE, SW. -/
def fullOffsets : List (Int × Int) :=
  [(-1, 0), (1, 0), (0, -1), (0, 1), (-1, -1), (1, -1), (-1, 1), (1, 1)]

/-- The four axis-aligned offsets N, S, E, W. -/
def adjOffsets : List (Int × Int) :=
  [(-1, 0), (1, 0), (0, -1), (0, 1)]

/-- Spec-side `empty_count`: the number of the 8 full neighbors of `p`
that are off, out-of-bounds counting as empty. -/
def specEmptyCount (bmp : Bitmap) (p : Pixel) : Nat :=
  fullOffsets.countP (fun d => offNeighbor bmp p d.1 d.2)

/-- Spec-side `empty_adj_count`: the number of the 4 axis-aligned
neighbors of `p` that are off, out-of-bounds counting as empty. -/
def specEmptyAdjCount (bmp : Bitmap) (p : Pixel) : Nat :=
  adjOffsets.countP (fun d => offNeighbor bmp p d.1 d.2)

/-! ### Edge extractor lemmas -/

/-- Whether the edge-collection loop keeps the pixel of byte index `i`:
nonzero coverage byte and the boundary classification. -/
def edgeCondFull (bmp : Bitmap) (i : Nat) : Prop :=
  ¬ bmp.bytes.getD i 0 = 0 ∧ edgeCond bmp (pix bmp.width i)

instance (bmp : Bitmap) (i : Nat) : Decidable (edgeCondFull bmp i) := by
  unfold edgeCondFull; infer_instance

lemma pix_injective (w : Nat) : Function.Injective (pix w) := by
  intro i j h
  unfold pix at h
  rw [Prod.mk.injEq] at h
  obtain ⟨h1, h2⟩ := h
  rcases Nat.eq_zero_or_pos w with hw | hw
  · subst hw
    simpa [Nat.mod_zero] using h1
  · have hi := Nat.div_add_mod i w
    have hj := Nat.div_add_mod j w
    rw [h1, h2] at hi
    exact hi.symm.trans hj

lemma foldl_edgeStep (bmp : Bitmap) :
    ∀ (l : List Nat) (acc : List Pixel), l.Nodup →
      (∀ j ∈ l, pix bmp.width j ∉ acc) →
      List.foldl (edgeStep bmp) acc l
        = acc ++ (l.filter (fun i => decide (edgeCondFull bmp i))).map (pix bmp.width) := by
  intro l
  induction l with
  | nil => intro acc _ _; simp
  | cons i t ih =>
    intro acc hnd hacc
    have hpi : pix bmp.width i ∉ acc := hacc i (List.mem_cons_self i t)
    have htacc : ∀ (acc' : List Pixel), (∀ j ∈ t, pix bmp.width j ∉ acc') →
        List.foldl (edgeStep bmp) acc' t
          = acc' ++ (t.filter (fun i => decide (edgeCondFull bmp i))).map (pix bmp.width) :=
      fun acc' h => ih acc' (List.Nodup.of_cons hnd) h
    rw [List.foldl_cons]
    by_cases hb : bmp.bytes.getD i 0 = 0
    · have hstep : edgeStep bmp acc i = acc := by
        simp only [edgeStep]
        rw [if_pos (Or.inl hb)]
      rw [hstep, htacc acc (fun j hj => hacc j (List.mem_cons_of_mem i hj))]
      have hfilter : decide (edgeCondFull bmp i) = false :=
        decide_eq_false (fun h => h.1 hb)
      simp [List.filter_cons, hfilter]
    · by_cases hc : edgeCond bmp (pix bmp.width i)
      · have hcond : ¬ (bmp.bytes.getD i 0 = 0 ∨ pix bmp.width i ∈ acc) := by
          push_neg
          exact ⟨hb, hpi⟩
        have hstep : edgeStep bmp acc i = acc ++ [pix bmp.width i] := by
          simp only [edgeStep]
          rw [if_neg hcond, if_pos hc]
        have hnotin : ∀ j ∈ t, pix bmp.width j ∉ acc ++ [pix bmp.width i] := by
          intro j hj hmem
          rcases List.mem_append.mp hmem with h | h
          · exact hacc j (List.mem_cons_of_mem i hj) h
          · have hji : pix bmp.width j = pix bmp.width i := by simpa using h
            have : j = i := pix_injective bmp.width hji
            subst this
            exact (List.nodup_cons.mp hnd).1 hj
        rw [hstep, htacc _ hnotin]
        have hfilter : decide (edgeCondFull bmp i) = true :=
          decide_eq_true ⟨hb, hc⟩
        simp [List.filter_cons, hfilter]
      · have hcond : ¬ (bmp.bytes.getD i 0 = 0 ∨ pix bmp.width i ∈ acc) := by
          push_neg
          exact ⟨hb, hpi⟩
        have hstep : edgeStep bmp acc i = acc := by
          simp only [edgeStep]
          rw [if_neg hcond, if_neg hc]
        rw [hstep, htacc acc (fun j hj => hacc j (List.mem_cons_of_mem i hj))]
        have hfilter : decide (edgeCondFull bmp i) = false :=
          decide_eq_false (fun h => hc h.2)
        simp [List.filter_cons, hfilter]

lemma edgePixels_eq_filter (bmp : Bitmap) :
    edgePixels bmp
      = ((List.range bmp.bytes.length).filter
          (fun i => decide (edgeCondFull bmp i))).map (pix bmp.width) := by
  unfold edgePixels
  rw [foldl_edgeStep bmp _ [] (List.nodup_range _) (by simp)]
  simp

lemma mem_edgePixels_iff (bmp : Bitmap) (p : Pixel)
    (hw : p.1 < bmp.width) (hh : p.2 < bmp.height)
    (hlen : bmp.bytes.length = bmp.width * bmp.height) :
    p ∈ edgePixels bmp ↔ (getPx bmp p = true ∧ edgeCond bmp p) := by
  have hwpos : 0 < bmp.width := Nat.pos_of_ne_zero (by omega)
  have hpix : pix bmp.width (p.2 * bmp.width + p.1) = p := by
    unfold pix
    rw [Prod.mk.injEq]
    constructor
    · rw [Nat.add_comm, Nat.add_mul_mod_self_right]
      exact Nat.mod_eq_of_lt hw
    · rw [Nat.add_comm, Nat.add_mul_div_right _ _ hwpos, Nat.div_eq_of_lt hw, Nat.zero_add]
  have hlt : p.2 * bmp.width + p.1 < bmp.bytes.length := by
    rw [hlen]
    calc p.2 * bmp.width + p.1 < p.2 * bmp.width + bmp.width := by omega
    _ = (p.2 + 1) * bmp.width := by ring
    _ ≤ bmp.height * bmp.width := Nat.mul_le_mul_right _ (by omega)
    _ = bmp.width * bmp.height := Nat.mul_comm _ _
  rw [edgePixels_eq_filter]
  constructor
  · intro hmem
    obtain ⟨i, hi, hpixi⟩ := List.mem_map.mp hmem
    obtain ⟨hir, hiP⟩ := List.mem_filter.mp hi
    have hP : edgeCondFull bmp i := of_decide_eq_true hiP
    have hieq : i = p.2 * bmp.width + p.1 :=
      pix_injective bmp.width (hpixi.trans hpix.symm)
    subst hieq
    have hcnd := hP.2
    rw [hpix] at hcnd
    refine ⟨?_, hcnd⟩
    unfold getPx
    have := hP.1
    simp only [decide_eq_true_eq]
    omega
  · rintro ⟨hon, hc⟩
    have hc' : edgeCond bmp (pix bmp.width (p.2 * bmp.width + p.1)) := by
      rw [hpix]; exact hc
    refine List.mem_map.mpr ⟨p.2 * bmp.width + p.1, List.mem_filter.mpr ⟨?_, ?_⟩, hpix⟩
    · exact List.mem_range.mpr hlt
    · refine decide_eq_true ⟨?_, hc'⟩
      unfold getPx at hon
      simp only [decide_eq_true_eq] at hon
      omega

/-! ### The source's neighbor slots agree with the spec's offset description -/

lemma slot_l (bmp : Bitmap) (x y : Nat) (hw : x < bmp.width) (hh : y < bmp.height) :
    offNeighbor bmp (x, y) (-1) 0
      = isEmptySlot bmp (if 0 < x then some (x - 1, y) else none) := by
  by_cases hx : 0 < x
  · rw [if_pos hx]
    have hc : 0 ≤ (x : Int) + -1 ∧ (x : Int) + -1 < (bmp.width : Int) ∧
        0 ≤ (y : Int) + 0 ∧ (y : Int) + 0 < (bmp.height : Int) := by omega
    simp only [offNeighbor]
    rw [if_pos hc]
    have e1 : ((x : Int) + -1).toNat = x - 1 := by omega
    have e2 : ((y : Int) + 0).toNat = y := by omega
    rw [e1, e2]
    rfl
  · rw [if_neg hx]
    have hc : ¬ (0 ≤ (x : Int) + -1 ∧ (x : Int) + -1 < (bmp.width : Int) ∧
        0 ≤ (y : Int) + 0 ∧ (y : Int) + 0 < (bmp.height : Int)) := by omega
    simp only [offNeighbor]
    rw [if_neg hc]
    rfl

lemma slot_r (bmp : Bitmap) (x y : Nat) (hw : x < bmp.width) (hh : y < bmp.height) :
    offNeighbor bmp (x, y) 1 0
      = isEmptySlot bmp (if x < bmp.width - 1 then some (x + 1, y) else none) := by
  by_cases hx : x < bmp.width - 1
  · rw [if_pos hx]
    have hc : 0 ≤ (x : Int) + 1 ∧ (x : Int) + 1 < (bmp.width : Int) ∧
        0 ≤ (y : Int) + 0 ∧ (y : Int) + 0 < (bmp.height : Int) := by omega
    simp only [offNeighbor]
    rw [if_pos hc]
    have e1 : ((x : Int) + 1).toNat = x + 1 := by omega
    have e2 : ((y : Int) + 0).toNat = y := by omega
    rw [e1, e2]
    rfl
  · rw [if_neg hx]
    have hc : ¬ (0 ≤ (x : Int) + 1 ∧ (x : Int) + 1 < (bmp.width : Int) ∧
        0 ≤ (y : Int) + 0 ∧ (y : Int) + 0 < (bmp.height : Int)) := by omega
    simp only [offNeighbor]
    rw [if_neg hc]
    rfl

lemma slot_t (bmp : Bitmap) (x y : Nat) (hw : x < bmp.width) (hh : y < bmp.height) :
    offNeighbor bmp (x, y) 0 (-1)
      = isEmptySlot bmp (if 0 < y then some (x, y - 1) else none) := by
  by_cases hy : 0 < y
  · rw [if_pos hy]
    have hc : 0 ≤ (x : Int) + 0 ∧ (x : Int) + 0 < (bmp.width : Int) ∧
        0 ≤ (y : Int) + -1 ∧ (y : Int) + -1 < (bmp.height : Int) := by omega
    simp only [offNeighbor]
    rw [if_pos hc]
    have e1 : ((x : Int) + 0).toNat = x := by omega
    have e2 : ((y : Int) + -1).toNat = y - 1 := by omega
    rw [e1, e2]
    rfl
  · rw [if_neg hy]
    have hc : ¬ (0 ≤ (x : Int) + 0 ∧ (x : Int) + 0 < (bmp.width : Int) ∧
        0 ≤ (y : Int) + -1 ∧ (y : Int) + -1 < (bmp.height : Int)) := by omega
    simp only [offNeighbor]
    rw [if_neg hc]
    rfl

lemma slot_b (bmp : Bitmap) (x y : Nat) (hw : x < bmp.width) (hh : y < bmp.height) :
    offNeighbor bmp (x, y) 0 1
      = isEmptySlot bmp (if y < bmp.height - 1 then some (x, y + 1) else none) := by
  by_cases hy : y < bmp.height - 1
  · rw [if_pos hy]
    have hc : 0 ≤ (x : Int) + 0 ∧ (x : Int) + 0 < (bmp.width : Int) ∧
        0 ≤ (y : Int) + 1 ∧ (y : Int) + 1 < (bmp.height : Int) := by omega
    simp only [offNeighbor]
    rw [if_pos hc]
    have e1 : ((x : Int) + 0).toNat = x := by omega
    have e2 : ((y : Int) + 1).toNat = y + 1 := by omega
    rw [e1, e2]
    rfl
  · rw [if_neg hy]
    have hc : ¬ (0 ≤ (x : Int) + 0 ∧ (x : Int) + 0 < (bmp.width : Int) ∧
        0 ≤ (y : Int) + 1 ∧ (y : Int) + 1 < (bmp.height : Int)) := by omega
    simp only [offNeighbor]
    rw [if_neg hc]
    rfl

lemma slot_tl (bmp : Bitmap) (x y : Nat) (hw : x < bmp.width) (hh : y < bmp.height) :
    offNeighbor bmp (x, y) (-1) (-1)
      = isEmptySlot bmp (Option.map x1y2
          (optZip (if 0 < x then some (x - 1, y) else none)
            (if 0 < y then some (x, y - 1) else none))) := by
  by_cases hx : 0 < x
  · by_cases hy : 0 < y
    · rw [if_pos hx, if_pos hy]
      have hc : 0 ≤ (x : Int) + -1 ∧ (x : Int) + -1 < (bmp.width : Int) ∧
          0 ≤ (y : Int) + -1 ∧ (y : Int) + -1 < (bmp.height : Int) := by omega
      simp only [offNeighbor]
      rw [if_pos hc]
      have e1 : ((x : Int) + -1).toNat = x - 1 := by omega
      have e2 : ((y : Int) + -1).toNat = y - 1 := by omega
      rw [e1, e2]
      rfl
    · rw [if_pos hx, if_neg hy]
      have hc : ¬ (0 ≤ (x : Int) + -1 ∧ (x : Int) + -1 < (bmp.width : Int) ∧
          0 ≤ (y : Int) + -1 ∧ (y : Int) + -1 < (bmp.height : Int)) := by omega
      simp only [offNeighbor]
      rw [if_neg hc]
      rfl
  · rw [if_neg hx]
    have hc : ¬ (0 ≤ (x : Int) + -1 ∧ (x : Int) + -1 < (bmp.width : Int) ∧
        0 ≤ (y : Int) + -1 ∧ (y : Int) + -1 < (bmp.height : Int)) := by omega
    simp only [offNeighbor]
    rw [if_neg hc]
    rfl

lemma slot_tr (bmp : Bitmap) (x y : Nat) (hw : x < bmp.width) (hh : y < bmp.height) :
    offNeighbor bmp (x, y) 1 (-1)
      = isEmptySlot bmp (Option.map x1y2
          (optZip (if x < bmp.width - 1 then some (x + 1, y) else none)
            (if 0 < y then some (x, y - 1) else none))) := by
  by_cases hx : x < bmp.width - 1
  · by_cases hy : 0 < y
    · rw [if_pos hx, if_pos hy]
      have hc : 0 ≤ (x : Int) + 1 ∧ (x : Int) + 1 < (bmp.width : Int) ∧
          0 ≤ (y : Int) + -1 ∧ (y : Int) + -1 < (bmp.height : Int) := by omega
      simp only [offNeighbor]
      rw [if_pos hc]
      have e1 : ((x : Int) + 1).toNat = x + 1 := by omega
      have e2 : ((y : Int) + -1).toNat = y - 1 := by omega
      rw [e1, e2]
      rfl
    · rw [if_pos hx, if_neg hy]
      have hc : ¬ (0 ≤ (x : Int) + 1 ∧ (x : Int) + 1 < (bmp.width : Int) ∧
          0 ≤ (y : Int) + -1 ∧ (y : Int) + -1 < (bmp.height : Int)) := by omega
      simp only [offNeighbor]
      rw [if_neg hc]
      rfl
  · rw [if_neg hx]
    have hc : ¬ (0 ≤ (x : Int) + 1 ∧ (x : Int) + 1 < (bmp.width : Int) ∧
        0 ≤ (y : Int) + -1 ∧ (y : Int) + -1 < (bmp.height : Int)) := by omega
    simp only [offNeighbor]
    rw [if_neg hc]
    rfl

lemma slot_bl (bmp : Bitmap) (x y : Nat) (hw : x < bmp.width) (hh : y < bmp.height) :
    offNeighbor bmp (x, y) (-1) 1
      = isEmptySlot bmp (Option.map x1y2
          (optZip (if 0 < x then some (x - 1, y) else none)
            (if y < bmp.height - 1 then some (x, y + 1) else none))) := by
  by_cases hx : 0 < x
  · by_cases hy : y < bmp.height - 1
    · rw [if_pos hx, if_pos hy]
      have hc : 0 ≤ (x : Int) + -1 ∧ (x : Int) + -1 < (bmp.width : Int) ∧
          0 ≤ (y : Int) + 1 ∧ (y : Int) + 1 < (bmp.height : Int) := by omega
      simp only [offNeighbor]
      rw [if_pos hc]
      have e1 : ((x : Int) + -1).toNat = x - 1 := by omega
      have e2 : ((y : Int) + 1).toNat = y + 1 := by omega
      rw [e1, e2]
      rfl
    · rw [if_pos hx, if_neg hy]
      have hc : ¬ (0 ≤ (x : Int) + -1 ∧ (x : Int) + -1 < (bmp.width : Int) ∧
          0 ≤ (y : Int) + 1 ∧ (y : Int) + 1 < (bmp.height : Int)) := by omega
      simp only [offNeighbor]
      rw [if_neg hc]
      rfl
  · rw [if_neg hx]
    have hc : ¬ (0 ≤ (x : Int) + -1 ∧ (x : Int) + -1 < (bmp.width : Int) ∧
        0 ≤ (y : Int) + 1 ∧ (y : Int) + 1 < (bmp.height : Int)) := by omega
    simp only [offNeighbor]
    rw [if_neg hc]
    rfl

lemma slot_br (bmp : Bitmap) (x y : Nat) (hw : x < bmp.width) (hh : y < bmp.height) :
    offNeighbor bmp (x, y) 1 1
      = isEmptySlot bmp (Option.map x1y2
          (optZip (if x < bmp.width - 1 then some (x + 1, y) else none)
            (if y < bmp.height - 1 then some (x, y + 1) else none))) := by
  by_cases hx : x < bmp.width - 1
  · by_cases hy : y < bmp.height - 1
    · rw [if_pos hx, if_pos hy]
      have hc : 0 ≤ (x : Int) + 1 ∧ (x : Int) + 1 < (bmp.width : Int) ∧
          0 ≤ (y : Int) + 1 ∧ (y : Int) + 1 < (bmp.height : Int) := by omega
      simp only [offNeighbor]
      rw [if_pos hc]
      have e1 : ((x : Int) + 1).toNat = x + 1 := by omega
      have e2 : ((y : Int) + 1).toNat = y + 1 := by omega
      rw [e1, e2]
      rfl
    · rw [if_pos hx, if_neg hy]
      have hc : ¬ (0 ≤ (x : Int) + 1 ∧ (x : Int) + 1 < (bmp.width : Int) ∧
          0 ≤ (y : Int) + 1 ∧ (y : Int) + 1 < (bmp.height : Int)) := by omega
      simp only [offNeighbor]
      rw [if_neg hc]
      rfl
  · rw [if_neg hx]
    have hc : ¬ (0 ≤ (x : Int) + 1 ∧ (x : Int) + 1 < (bmp.width : Int) ∧
        0 ≤ (y : Int) + 1 ∧ (y : Int) + 1 < (bmp.height : Int)) := by omega
    simp only [offNeighbor]
    rw [if_neg hc]
    rfl

/-- For an in-bounds pixel, the source's `empty_count` over its
neighbor iterator equals the spec's count over the 8 offsets. -/
lemma specEmptyCount_eq (bmp : Bitmap) (x y : Nat)
    (hw : x < bmp.width) (hh : y < bmp.height) :
    specEmptyCount bmp (x, y) = empty_count bmp (x, y) := by
  simp only [specEmptyCount, empty_count, fullOffsets, neighbors, adj_neighbors_array,
    List.countP_cons, List.countP_nil]
  rw [slot_l bmp x y hw hh, slot_r bmp x y hw hh, slot_t bmp x y hw hh, slot_b bmp x y hw hh,
    slot_tl bmp x y hw hh, slot_tr bmp x y hw hh, slot_bl bmp x y hw hh, slot_br bmp x y hw hh]

/-- For an in-bounds pixel, the source's `empty_adj_count` equals the
spec's count over the 4 axis-aligned offsets. -/
lemma specEmptyAdjCount_eq (bmp : Bitmap) (x y : Nat)
    (hw : x < bmp.width) (hh : y < bmp.height) :
    specEmptyAdjCount bmp (x, y) = empty_adj_count bmp (x, y) := by
  simp only [specEmptyAdjCount, empty_adj_count, adjOffsets, adj_neighbors,
    adj_neighbors_array, List.countP_cons, List.countP_nil]
  rw [slot_l bmp x y hw hh, slot_r bmp x y hw hh, slot_t bmp x y hw hh, slot_b bmp x y hw hh]

/-- A fully solid square coverage bitmap: every coverage byte is 1. -/
def solidBitmap (n : Nat) : Bitmap := ⟨n, n, List.replicate (n * n) 1⟩

/-- C1: For every coverage bitmap and every on pixel `p` (coverage byte
positive), the edge extractor classifies `p` as a boundary pixel (that
is, `p` ends up in the collected edge set) if and only if
`2 ≤ empty_count ≤ 4` or `empty_adj_count = 1`, where `empty_count`
counts the 8 full neighbors of `p` that are off (out-of-bounds counting
as empty) and `empty_adj_count` counts the 4 axis-aligned neighbors of
`p` that are off (out-of-bounds counting as empty). -/
theorem edge_classification_rule (bmp : Bitmap) (p : Pixel)
    (hw : p.1 < bmp.width) (hh : p.2 < bmp.height)
    (hlen : bmp.bytes.length = bmp.width * bmp.height)
    (hon : getPx bmp p = true) :
    p ∈ edgePixels bmp ↔
      ((2 ≤ specEmptyCount bmp p ∧ specEmptyCount bmp p ≤ 4) ∨
        specEmptyAdjCount bmp p = 1) := by
  obtain ⟨x, y⟩ := p
  rw [mem_edgePixels_iff bmp (x, y) hw hh hlen,
    specEmptyCount_eq bmp x y hw hh, specEmptyAdjCount_eq bmp x y hw hh]
  unfold edgeCond
  simp [hon]

/-- Witness for C1 on a concrete 3×3 solid bitmap at pixel (1, 0). -/
theorem edge_classification_rule_witness :
    getPx (solidBitmap 3) (1, 0) = true ∧
      ((1, 0) ∈ edgePixels (solidBitmap 3) ↔
        ((2 ≤ specEmptyCount (solidBitmap 3) (1, 0) ∧
            specEmptyCount (solidBitmap 3) (1, 0) ≤ 4) ∨
          specEmptyAdjCount (solidBitmap 3) (1, 0) = 1)) :=
  ⟨by decide,
    edge_classification_rule (solidBitmap 3) (1, 0)
      (by decide) (by decide) (by decide) (by decide)⟩

/-! ### Contour tracer

The grouping phase of `GlyphCache::vectorize`: a `while let` loop over
the remaining edge set with an inner `loop` extending the current
contour.  The `HashSet` is modelled as a list (`edges.iter().next()`
becomes the head), and the two source loops become fuel-indexed
recursions; fuel sufficiency is proved below. -/

/-- Rust's `Iterator::max_by_key`: the last maximal element under the
key, `none` exactly on the empty iterator. -/
def max_by_key (f : Pixel → Nat) (l : List Pixel) : Option Pixel :=
  l.foldl
    (fun acc q =>
      match acc with
      | none => some q
      | some m => if f m ≤ f q then some q else some m)
    none

/-- The source's distance key
`p[0].max(x) - p[0].min(x) + p[1].max(y) - p[1].min(y)`
(left-associated exactly as in Rust; `Nat` subtraction matches `usize`
here because `max ≥ min`). -/
def traceKey (p q : Pixel) : Nat :=
  max p.1 q.1 - min p.1 q.1 + max p.2 q.2 - min p.2 q.2

/-- The source's `neighbor_edges`: the 8-neighbors of `p` that are
still in the remaining edge set, in iterator order. -/
def neighborEdges (w h : Nat) (edges : List Pixel) (p : Pixel) : List Pixel :=
  ((neighbors p w h).filterMap id).filter (fun e => e ∈ edges)

/-- One iteration of the inner contour loop at current pixel `p`:
`none` when no neighbor of `p` remains (the source's `break`),
otherwise the remaining set with all found neighbors removed paired
with the pixel appended by `poly.extend(...max_by_key...)`.
(`max_by_key` is `none` exactly when `neighbor_edges` is empty, which
is the source's `is_empty` test.) -/
def traceStep (w h : Nat) (edges : List Pixel) (p : Pixel) :
    Option (List Pixel × Pixel) :=
  let ne := neighborEdges w h edges p
  match max_by_key (traceKey p) ne with
  | none => none
  | some q => some (edges.filter (fun e => e ∉ ne), q)

/-- The inner `loop` of the grouping phase, fuel-indexed: repeatedly
step from the contour's last pixel until no neighbor remains.  `none`
models both fuel exhaustion (never reached, see
`traceContour_total`) and the unreachable `poly.last().unwrap()`
on an empty contour. -/
def traceContour (w h : Nat) : Nat → List Pixel → List Pixel →
    Option (List Pixel × List Pixel)
  | 0, _, _ => none
  | fuel + 1, edges, poly =>
    match poly.getLast? with
    | none => none
    | some p =>
      match traceStep w h edges p with
      | none => some (edges, poly)
      | some (edges', q) => traceContour w h fuel edges' (poly ++ [q])

/-- The outer `while let Some(first)` loop of the grouping phase,
fuel-indexed: take a remaining pixel, remove it, start a new contour
with it and run the inner loop. -/
def groupContours (w h : Nat) : Nat → List Pixel → Option (List (List Pixel))
  | 0, edges => if edges.isEmpty then some [] else none
  | fuel + 1, edges =>
    match edges with
    | [] => some []
    | first :: rest =>
      match traceContour w h (rest.length + 1) rest [first] with
      | none => none
      | some (edges', poly) =>
        match groupContours w h fuel edges' with
        | none => none
        | some polys => some (poly :: polys)

/-! ### Tracer lemmas -/

lemma max_by_key_aux (f : Pixel → Nat) :
    ∀ (l : List Pixel) (m : Pixel),
      ∃ q, (l.foldl
          (fun acc q =>
            match acc with
            | none => some q
            | some m => if f m ≤ f q then some q else some m)
          (some m)) = some q ∧
        (q ∈ l ∨ q = m) ∧ f m ≤ f q ∧ ∀ r ∈ l, f r ≤ f q := by
  intro l
  induction l with
  | nil => exact fun m => ⟨m, rfl, Or.inr rfl, le_refl _, by simp⟩
  | cons x t ih =>
    intro m
    simp only [List.foldl_cons]
    by_cases hmx : f m ≤ f x
    · obtain ⟨q, hq, hmem, hle, hall⟩ := ih x
      rw [if_pos hmx]
      refine ⟨q, hq, ?_, le_trans hmx hle, ?_⟩
      · rcases hmem with h | h
        · exact Or.inl (List.mem_cons_of_mem x h)
        · exact Or.inl (h ▸ List.mem_cons_self x t)
      · intro r hr
        rcases List.mem_cons.mp hr with h | h
        · exact h ▸ hle
        · exact hall r h
    · obtain ⟨q, hq, hmem, hle, hall⟩ := ih m
      rw [if_neg hmx]
      refine ⟨q, hq, ?_, hle, ?_⟩
      · rcases hmem with h | h
        · exact Or.inl (List.mem_cons_of_mem x h)
        · exact Or.inr h
      · intro r hr
        rcases List.mem_cons.mp hr with h | h
        · subst h
          exact le_trans (Nat.le_of_not_le hmx) hle
        · exact hall r h

/-- `max_by_key` on a nonempty list returns a member maximizing the
key (the last such, as in Rust). -/
lemma max_by_key_spec (f : Pixel → Nat) (l : List Pixel) (hne : l ≠ []) :
    ∃ q, max_by_key f l = some q ∧ q ∈ l ∧ ∀ r ∈ l, f r ≤ f q := by
  match l with
  | [] => exact absurd rfl hne
  | x :: t =>
    unfold max_by_key
    simp only [List.foldl_cons]
    obtain ⟨q, hq, hmem, hxq, hall⟩ := max_by_key_aux f t x
    refine ⟨q, hq, ?_, ?_⟩
    · rcases hmem with h | h
      · exact List.mem_cons_of_mem x h
      · exact h ▸ List.mem_cons_self x t
    · intro r hr
      rcases List.mem_cons.mp hr with h | h
      · exact h ▸ hxq
      · exact hall r h

lemma max_by_key_eq_none (f : Pixel → Nat) : max_by_key f [] = none := rfl

lemma length_filter_lt (l : List Pixel) (pr : Pixel → Bool) (x : Pixel)
    (hx : x ∈ l) (hpx : pr x = false) : (l.filter pr).length < l.length := by
  induction l with
  | nil => cases hx
  | cons a t ih =>
    rcases List.mem_cons.mp hx with h | h
    · subst h
      rw [List.filter_cons, hpx]
      have := List.length_filter_le pr t
      simpa using Nat.lt_succ_of_le this
    · rw [List.filter_cons]
      cases hpa : pr a
      · simpa using Nat.lt_succ_of_lt (ih h)
      · simpa using Nat.succ_lt_succ (ih h)

lemma neighborEdges_subset (w h : Nat) (edges : List Pixel) (p : Pixel) :
    ∀ e ∈ neighborEdges w h edges p, e ∈ edges := by
  intro e he
  have := List.mem_filter.mp he
  simpa using this.2

lemma traceStep_length_lt (w h : Nat) (edges : List Pixel) (p : Pixel)
    (edges' : List Pixel) (q : Pixel)
    (hstep : traceStep w h edges p = some (edges', q)) :
    edges'.length < edges.length := by
  simp only [traceStep] at hstep
  rcases hmax : max_by_key (traceKey p) (neighborEdges w h edges p) with _ | q'
  · rw [hmax] at hstep
    cases hstep
  · rw [hmax] at hstep
    obtain ⟨he, _⟩ := Prod.mk.injEq .. ▸ (Option.some.injEq .. ▸ hstep)
    have hq'mem : q' ∈ neighborEdges w h edges p := by
      by_cases hne : neighborEdges w h edges p = []
      · rw [hne] at hmax
        cases hmax
      · obtain ⟨q'', hq'', hmem, _⟩ := max_by_key_spec (traceKey p) _ hne
        rw [hmax] at hq''
        cases hq''
        exact hmem
    have hq'edges : q' ∈ edges := neighborEdges_subset w h edges p q' hq'mem
    rw [← he]
    exact length_filter_lt edges _ q' hq'edges (by simp [hq'mem])

lemma traceContour_total (w h : Nat) :
    ∀ (fuel : Nat) (edges poly : List Pixel), poly ≠ [] →
      edges.length < fuel →
      ∃ r, traceContour w h fuel edges poly = some r ∧
        r.1.length ≤ edges.length := by
  intro fuel
  induction fuel with
  | zero => intro edges poly _ h; omega
  | succ fuel ih =>
    intro edges poly hpoly hlen
    obtain ⟨p, hp⟩ : ∃ p, poly.getLast? = some p := by
      cases hlast : poly.getLast? with
      | none => exact absurd (List.getLast?_eq_none_iff.mp hlast) hpoly
      | some p => exact ⟨p, rfl⟩
    have heq : traceContour w h (fuel + 1) edges poly
        = match traceStep w h edges p with
          | none => some (edges, poly)
          | some (edges', q) => traceContour w h fuel edges' (poly ++ [q]) := by
      simp only [traceContour]
      rw [hp]
    rw [heq]
    cases hstep : traceStep w h edges p with
    | none => exact ⟨(edges, poly), rfl, le_refl _⟩
    | some r' =>
      obtain ⟨edges', q⟩ := r'
      have hlt := traceStep_length_lt w h edges p edges' q hstep
      obtain ⟨r, hr, hrlen⟩ := ih edges' (poly ++ [q]) (by simp) (by omega)
      exact ⟨r, hr, le_trans hrlen (Nat.le_of_lt hlt)⟩

lemma groupContours_total (w h : Nat) :
    ∀ (fuel : Nat) (edges : List Pixel), edges.length ≤ fuel →
      (groupContours w h fuel edges).isSome = true := by
  intro fuel
  induction fuel with
  | zero =>
    intro edges hlen
    have : edges = [] := List.length_eq_zero.mp (Nat.le_zero.mp hlen)
    subst this
    rfl
  | succ fuel ih =>
    intro edges hlen
    cases edges with
    | nil => rfl
    | cons first rest =>
      obtain ⟨r, hr, hrlen⟩ :=
        traceContour_total w h (rest.length + 1) rest [first] (by simp)
          (Nat.lt_succ_self _)
      obtain ⟨edges', poly⟩ := r
      simp only [groupContours]
      rw [hr]
      have hlen' : edges'.length ≤ fuel := by
        simp only [List.length_cons] at hlen
        simp only at hrlen
        omega
      have hsome := ih edges' hlen'
      show (match groupContours w h fuel edges' with
        | none => none
        | some polys => some (poly :: polys)).isSome = true
      cases hgc : groupContours w h fuel edges' with
      | none => rw [hgc] at hsome; simp at hsome
      | some polys => rfl

/-- C2: Each step of the contour tracer takes the contour's last pixel
`p` and collects all of `p`'s 8-neighbors still in the remaining set;
if there are none the contour is finished (the loop returns the contour
as is); otherwise the step removes exactly the found neighbors from the
remaining set and appends to the contour one found neighbor, selected
by `max_by_key`, which maximizes
`(max x1 x2 - min x1 x2) + (max y1 y2 - min y1 y2)` with respect to
`p`. -/
theorem trace_step_spec (w h fuel : Nat) (edges poly : List Pixel) (p q : Pixel)
    (hlast : poly.getLast? = some p) :
    (neighborEdges w h edges p = [] →
      traceContour w h (fuel + 1) edges poly = some (edges, poly)) ∧
    (neighborEdges w h edges p ≠ [] →
      (max_by_key (traceKey p) (neighborEdges w h edges p)).isSome = true) ∧
    (max_by_key (traceKey p) (neighborEdges w h edges p) = some q →
      q ∈ neighborEdges w h edges p ∧
      (∀ r ∈ neighborEdges w h edges p, traceKey p r ≤ traceKey p q) ∧
      (∀ e : Pixel, e ∈ edges.filter (fun e => e ∉ neighborEdges w h edges p) ↔
        (e ∈ edges ∧ e ∉ neighborEdges w h edges p)) ∧
      traceContour w h (fuel + 1) edges poly
        = traceContour w h fuel
            (edges.filter (fun e => e ∉ neighborEdges w h edges p))
            (poly ++ [q])) := by
  have heq : traceContour w h (fuel + 1) edges poly
      = match traceStep w h edges p with
        | none => some (edges, poly)
        | some (edges', q) => traceContour w h fuel edges' (poly ++ [q]) := by
    simp only [traceContour]
    rw [hlast]
  refine ⟨?_, ?_, ?_⟩
  · intro hne
    have hstep : traceStep w h edges p = none := by
      simp only [traceStep]
      rw [hne]
      rfl
    rw [heq, hstep]
  · intro hne
    obtain ⟨q', hq', _, _⟩ := max_by_key_spec (traceKey p) _ hne
    rw [hq']
    rfl
  · intro hmax
    have hne : neighborEdges w h edges p ≠ [] := by
      intro hnil
      rw [hnil] at hmax
      cases hmax
    obtain ⟨q', hq', hmem, hall⟩ := max_by_key_spec (traceKey p) _ hne
    rw [hmax] at hq'
    cases hq'
    have hstep : traceStep w h edges p
        = some (edges.filter (fun e => e ∉ neighborEdges w h edges p), q) := by
      simp only [traceStep]
      rw [hmax]
    refine ⟨hmem, hall, ?_, ?_⟩
    · intro e
      simp [List.mem_filter]
    · rw [heq, hstep]

/-- Witness for C2 at a concrete step: tracing from `p = (0,0)` with
remaining set `[(1,0),(2,0)]` in a 5×5 grid removes the single found
neighbor `(1,0)` and appends it. -/
theorem trace_step_spec_witness :
    max_by_key (traceKey (0, 0)) (neighborEdges 5 5 [(1, 0), (2, 0)] (0, 0))
        = some (1, 0) ∧
      traceContour 5 5 2 [(1, 0), (2, 0)] [(0, 0)]
        = traceContour 5 5 1
            (List.filter (fun e => e ∉ neighborEdges 5 5 [(1, 0), (2, 0)] (0, 0))
              [(1, 0), (2, 0)])
            ([(0, 0)] ++ [(1, 0)]) :=
  ⟨by decide,
    ((trace_step_spec 5 5 1 [(1, 0), (2, 0)] [(0, 0)] (0, 0) (1, 0)
      rfl).2.2 (by decide)).2.2.2⟩

/-- C10: The contour-grouping phase of vectorization terminates: every
inner step strictly shrinks the remaining set and every outer iteration
removes at least its starting pixel, so with fuel at least the size of
the remaining set the fueled embedding never exhausts its fuel. -/
theorem grouping_terminates (w h fuel : Nat) (edges : List Pixel)
    (hfuel : edges.length ≤ fuel) :
    (groupContours w h fuel edges).isSome = true :=
  groupContours_total w h fuel edges hfuel

/-- Witness for C10 on the boundary pixels of the solid 5×5 bitmap. -/
theorem grouping_terminates_witness :
    (edgePixels (solidBitmap 5)).length ≤ 12 ∧
      (groupContours 5 5 12 (edgePixels (solidBitmap 5))).isSome = true :=
  ⟨by decide, grouping_terminates 5 5 12 (edgePixels (solidBitmap 5)) (by decide)⟩

/-! ### Triangulation and the vectorization pipeline -/

/-- Glyph metrics.  Modelled from the spec: `fontdue::Metrics` is an
external collaborator whose source is not under `src/`; `vectorize`
reads only its `width` and `height` fields (the bitmap dimensions), so
only those are modelled. -/
structure Metrics where
  width : Nat
  height : Nat
  deriving Repr, DecidableEq

/-- Embedding of the source's `GlyphGeometry`.  Vertex positions are
pixel coordinates: the source converts them with `as f32`, which is
exact for these integers, so positions are modelled as the integers
themselves; `u16` indices are modelled as `Nat`. -/
structure GlyphGeometry where
  vertices : List Pixel
  indices : List Nat
  deriving Repr, DecidableEq

/-- The path submitted for one contour in `GlyphCache::vectorize`:
`move_to` the first point, `line_to` each subsequent point, then a
final `line_to` back to the first point (the trailing
`path.line_to(point(x, y))` in the source reuses the first point's
shadowed coordinates) and `close`.  `none` models the
`poly_iter.next().unwrap()` panic on an empty contour (never produced
by the tracer). -/
def pathPoints (poly : List Pixel) : Option (List Pixel) :=
  match poly with
  | [] => none
  | first :: rest => some (first :: (rest ++ [first]))

/-- The triangle-fan index triples over a closed path: one triple of
indices into `vs` per consecutive pair after the path head.  A path of
fewer than three points contributes no triangles. -/
def fanIndices (vs : List Pixel) (path : List Pixel) : List Nat :=
  match path with
  | [] => []
  | p0 :: rest =>
    (rest.zip rest.tail).foldr
      (fun ab acc => vs.indexOf p0 :: vs.indexOf ab.1 :: vs.indexOf ab.2 :: acc) []

/-- Modelled from the spec: the lyon `FillTessellator` with
`simple_builder` is an external collaborator not under `src/`.  Per the
spec's tessellation contract the collaborator "returns deduplicated
vertices and a triangle index list covering the filled region"; this
model returns the deduplicated path points as the vertex list and a
triangle-fan index list per closed path. -/
def tessellate (paths : List (List Pixel)) : List Pixel × List Nat :=
  let vertices := paths.flatten.dedup
  let indices := paths.foldr (fun path acc => fanIndices vertices path ++ acc) []
  (vertices, indices)

/-- Embedding of `GlyphCache::vectorize` after rasterization: edge
extraction, contour grouping (with fuel equal to the number of edge
pixels, sufficient by `groupContours_total`), path building and
tessellation.  `none` models the source's panics. -/
def vectorize (m : Metrics) (bytes : List Nat) : Option (Metrics × GlyphGeometry) :=
  let bmp : Bitmap := ⟨m.width, m.height, bytes⟩
  let edges := edgePixels bmp
  match groupContours m.width m.height edges.length edges with
  | none => none
  | some polys =>
    match polys.mapM pathPoints with
    | none => none
    | some paths =>
      let vi := tessellate paths
      some (m, ⟨vi.1, vi.2⟩)

/-! ### Pipeline lemmas -/

lemma edgePixels_of_all_zero (bmp : Bitmap) (hzero : ∀ b ∈ bmp.bytes, b = 0) :
    edgePixels bmp = [] := by
  rw [edgePixels_eq_filter]
  have hfil : (List.range bmp.bytes.length).filter
      (fun i => decide (edgeCondFull bmp i)) = [] := by
    refine List.filter_eq_nil_iff.mpr ?_
    intro i hi
    have hlt : i < bmp.bytes.length := List.mem_range.mp hi
    have hb : bmp.bytes.getD i 0 = 0 := by
      rw [List.getD_eq_getElem bmp.bytes 0 hlt]
      exact hzero _ (List.getElem_mem hlt)
    intro hdec
    exact (of_decide_eq_true hdec).1 hb
  rw [hfil]
  rfl

lemma mem_foldr_triples (vs : List Pixel) (p0 : Pixel) :
    ∀ (l : List (Pixel × Pixel)) (i : Nat),
      i ∈ l.foldr
        (fun ab acc => vs.indexOf p0 :: vs.indexOf ab.1 :: vs.indexOf ab.2 :: acc)
        [] →
      i = vs.indexOf p0 ∨ ∃ ab ∈ l, i = vs.indexOf ab.1 ∨ i = vs.indexOf ab.2 := by
  intro l
  induction l with
  | nil => intro i hi; cases hi
  | cons ab t ih =>
    intro i hi
    simp only [List.foldr_cons, List.mem_cons] at hi
    rcases hi with h | h | h | h
    · exact Or.inl h
    · exact Or.inr ⟨ab, List.mem_cons_self ab t, Or.inl h⟩
    · exact Or.inr ⟨ab, List.mem_cons_self ab t, Or.inr h⟩
    · rcases ih i h with h' | ⟨ab', hab', h'⟩
      · exact Or.inl h'
      · exact Or.inr ⟨ab', List.mem_cons_of_mem ab hab', h'⟩

lemma length_foldr_triples (vs : List Pixel) (p0 : Pixel) :
    ∀ (l : List (Pixel × Pixel)),
      (l.foldr
        (fun ab acc => vs.indexOf p0 :: vs.indexOf ab.1 :: vs.indexOf ab.2 :: acc)
        []).length = 3 * l.length := by
  intro l
  induction l with
  | nil => rfl
  | cons ab t ih =>
    simp only [List.foldr_cons, List.length_cons, ih, List.length_cons]
    ring

lemma fanIndices_mem (vs : List Pixel) (path : List Pixel) (i : Nat)
    (hi : i ∈ fanIndices vs path) : ∃ p ∈ path, i = vs.indexOf p := by
  match path with
  | [] => cases hi
  | p0 :: rest =>
    simp only [fanIndices] at hi
    rcases mem_foldr_triples vs p0 _ i hi with h | ⟨ab, hab, h⟩
    · exact ⟨p0, List.mem_cons_self p0 rest, h⟩
    · obtain ⟨h1, h2⟩ := List.of_mem_zip hab
      rcases h with h | h
      · exact ⟨ab.1, List.mem_cons_of_mem p0 h1, h⟩
      · exact ⟨ab.2, List.mem_cons_of_mem p0 ((List.tail_sublist rest).subset h2), h⟩

lemma fanIndices_length (vs : List Pixel) (path : List Pixel) :
    (fanIndices vs path).length % 3 = 0 := by
  match path with
  | [] => rfl
  | p0 :: rest =>
    simp only [fanIndices, length_foldr_triples]
    omega

lemma indexOf_lt_of_mem : ∀ (vs : List Pixel) (p : Pixel), p ∈ vs → vs.indexOf p < vs.length := by
  intro vs
  induction vs with
  | nil => intro p h; cases h
  | cons a t ih =>
    intro p h
    simp only [List.indexOf, List.findIdx_cons] at ih ⊢
    by_cases hap : (a == p) = true
    · simp [hap]
    · have hf : (a == p) = false := by
        simpa using hap
      have hmem : p ∈ t := by
        rcases List.mem_cons.mp h with h' | h'
        · subst h'
          exact absurd (by simp) hap
        · exact h'
      simp only [hf, cond_false, List.length_cons]
      exact Nat.succ_lt_succ (ih p hmem)

lemma tessellate_indices_lt (paths : List (List Pixel)) :
    ∀ i ∈ (tessellate paths).2, i < (tessellate paths).1.length := by
  intro i hi
  simp only [tessellate] at hi ⊢
  have : ∀ (l : List (List Pixel)),
      i ∈ l.foldr (fun path acc => fanIndices paths.flatten.dedup path ++ acc) [] →
      (∃ path ∈ l, ∃ p ∈ path, i = paths.flatten.dedup.indexOf p) := by
    intro l
    induction l with
    | nil => intro h; cases h
    | cons path t ih =>
      intro h
      rcases List.mem_append.mp h with h | h
      · obtain ⟨p, hp, hip⟩ := fanIndices_mem _ _ _ h
        exact ⟨path, List.mem_cons_self path t, p, hp, hip⟩
      · obtain ⟨path', hpath', hrest⟩ := ih h
        exact ⟨path', List.mem_cons_of_mem path hpath', hrest⟩
  obtain ⟨path, hpath, p, hp, hip⟩ := this paths hi
  have hpmem : p ∈ paths.flatten.dedup :=
    List.mem_dedup.mpr (List.mem_flatten.mpr ⟨path, hpath, hp⟩)
  rw [hip]
  exact indexOf_lt_of_mem _ p hpmem

lemma foldr_fan_length_mod3 (vs : List Pixel) (l : List (List Pixel)) :
    (l.foldr (fun path acc => fanIndices vs path ++ acc) []).length % 3 = 0 := by
  induction l with
  | nil => rfl
  | cons path t ih =>
    simp only [List.foldr_cons, List.length_append]
    have := fanIndices_length vs path
    omega

lemma tessellate_indices_mod3 (paths : List (List Pixel)) :
    (tessellate paths).2.length % 3 = 0 := by
  simp only [tessellate]
  exact foldr_fan_length_mod3 _ _

/-- C7: For every rasterization that yields an all-zero coverage bitmap
(such as a space character), the vectorization pipeline finds no edge
pixels, produces zero contours, and returns an empty `GlyphGeometry`
(0 vertices and 0 indices) without raising an error. -/
theorem whitespace_empty_geometry (m : Metrics) (bytes : List Nat)
    (hzero : ∀ b ∈ bytes, b = 0) :
    edgePixels ⟨m.width, m.height, bytes⟩ = [] ∧
      groupContours m.width m.height
          (edgePixels ⟨m.width, m.height, bytes⟩).length
          (edgePixels ⟨m.width, m.height, bytes⟩) = some [] ∧
      vectorize m bytes = some (m, ⟨[], []⟩) := by
  have hedges : edgePixels ⟨m.width, m.height, bytes⟩ = [] :=
    edgePixels_of_all_zero _ hzero
  refine ⟨hedges, ?_, ?_⟩
  · rw [hedges]
    rfl
  · simp only [vectorize]
    rw [hedges]
    rfl

/-- Witness for C7 on the all-zero 2×2 bitmap. -/
theorem whitespace_empty_geometry_witness :
    edgePixels ⟨2, 2, [0, 0, 0, 0]⟩ = [] ∧
      groupContours 2 2
          (edgePixels ⟨2, 2, [0, 0, 0, 0]⟩).length
          (edgePixels ⟨2, 2, [0, 0, 0, 0]⟩) = some [] ∧
      vectorize ⟨2, 2⟩ [0, 0, 0, 0] = some (⟨2, 2⟩, ⟨[], []⟩) :=
  whitespace_empty_geometry ⟨2, 2⟩ [0, 0, 0, 0] (by decide)

/-- C8: Every `GlyphGeometry` produced by the vectorization pipeline
has every index strictly below the vertex count, and an index count
that is a multiple of 3. -/
theorem geometry_indices_invariant (m m' : Metrics) (bytes : List Nat)
    (g : GlyphGeometry) (hv : vectorize m bytes = some (m', g)) :
    (∀ i ∈ g.indices, i < g.vertices.length) ∧ g.indices.length % 3 = 0 := by
  simp only [vectorize] at hv
  cases hgc : groupContours m.width m.height
      (edgePixels ⟨m.width, m.height, bytes⟩).length
      (edgePixels ⟨m.width, m.height, bytes⟩) with
  | none => rw [hgc] at hv; cases hv
  | some polys =>
    rw [hgc] at hv
    have hv' : (match polys.mapM pathPoints with
        | none => none
        | some paths =>
          some (m, (⟨(tessellate paths).1, (tessellate paths).2⟩ : GlyphGeometry)))
        = some (m', g) := hv
    cases hmm : polys.mapM pathPoints with
    | none => rw [hmm] at hv'; cases hv'
    | some paths =>
      rw [hmm] at hv'
      simp only [Option.some.injEq, Prod.mk.injEq] at hv'
      obtain ⟨-, hg⟩ := hv'
      subst hg
      exact ⟨fun i hi => tessellate_indices_lt paths i hi,
        tessellate_indices_mod3 paths⟩

/-- The geometry the pipeline computes for the solid 5×5 bitmap. -/
def solid5Geometry : GlyphGeometry :=
  ⟨[(0, 1), (0, 2), (0, 3), (1, 4), (2, 4), (3, 4), (4, 3), (4, 2), (4, 1), (3, 0), (1, 0)],
    [10, 0, 1, 10, 1, 2, 10, 2, 3, 10, 3, 4, 10, 4, 5, 10, 5, 6, 10, 6, 7,
      10, 7, 8, 10, 8, 9, 10, 9, 10]⟩

/-- Witness for C8 on the solid 5×5 bitmap. -/
theorem geometry_indices_invariant_witness :
    vectorize ⟨5, 5⟩ (List.replicate 25 1) = some (⟨5, 5⟩, solid5Geometry) ∧
      solid5Geometry.indices.length % 3 = 0 :=
  ⟨by decide,
    (geometry_indices_invariant ⟨5, 5⟩ ⟨5, 5⟩ (List.replicate 25 1) solid5Geometry
      (by decide)).2⟩

/-! ### Glyph cache and font cache -/

/-- The parsed font object.  Modelled from the spec: fontdue's `Font`
is an external collaborator (the font module of the vendored fontdue is
not under `src/`); the only capability the glyph cache uses is
`rasterize(ch, resolution) -> (Metrics, coverage bytes)`, so a font is
modelled as that function. -/
structure Font where
  rasterize : Char → Nat → Metrics × List Nat

/-- Embedding of `GlyphCache`: the font plus the
`RefCell<HashMap<(char, u32), (Metrics, GlyphGeometry)>>`, the map
modelled as a function. -/
structure GlyphCache where
  font : Font
  geometry : Char × Nat → Option (Metrics × GlyphGeometry)

/-- `impl From<Font> for GlyphCache`: a fresh cache with an empty
geometry map. -/
def GlyphCache.ofFont (f : Font) : GlyphCache := ⟨f, fun _ => none⟩

/-- The rasterization step of `GlyphCache::vectorize` followed by the
pure pipeline. -/
def GlyphCache.vectorizeGlyph (c : GlyphCache) (ch : Char) (r : Nat) :
    Option (Metrics × GlyphGeometry) :=
  let mb := c.font.rasterize ch r
  vectorize mb.1 mb.2

/-- Embedding of `GlyphCache::glyph`: on a cache hit return the stored
value with the cache unchanged; on a miss run the vectorization
pipeline once, store the result under `(ch, r)` and return it.  The
`Nat` component counts the vectorize invocations performed by the call
(the work observable on a mock rasterizer); `none` models a panic
inside vectorization. -/
def GlyphCache.glyph (c : GlyphCache) (ch : Char) (r : Nat) :
    Option ((Metrics × GlyphGeometry) × GlyphCache × Nat) :=
  match c.geometry (ch, r) with
  | some v => some (v, c, 0)
  | none =>
    match c.vectorizeGlyph ch r with
    | none => none
    | some v =>
      some (v, ⟨c.font, fun k => if k = (ch, r) then some v else c.geometry k⟩, 1)

/-- A cache hit returns the stored value with no work. -/
lemma glyph_hit (c : GlyphCache) (ch : Char) (r : Nat)
    (v₀ : Metrics × GlyphGeometry) (hg : c.geometry (ch, r) = some v₀) :
    c.glyph ch r = some (v₀, c, 0) := by
  unfold GlyphCache.glyph
  rw [hg]

/-- A cache miss vectorizes once and stores the result. -/
lemma glyph_miss (c : GlyphCache) (ch : Char) (r : Nat)
    (v₁ : Metrics × GlyphGeometry) (hg : c.geometry (ch, r) = none)
    (hvz : c.vectorizeGlyph ch r = some v₁) :
    c.glyph ch r
      = some (v₁,
          ⟨c.font, fun k => if k = (ch, r) then some v₁ else c.geometry k⟩, 1) := by
  unfold GlyphCache.glyph
  rw [hg, hvz]

/-- A cache miss where vectorization panics propagates the panic. -/
lemma glyph_miss_none (c : GlyphCache) (ch : Char) (r : Nat)
    (hg : c.geometry (ch, r) = none) (hvz : c.vectorizeGlyph ch r = none) :
    c.glyph ch r = none := by
  unfold GlyphCache.glyph
  rw [hg, hvz]

/-- C4: `glyph(ch, r)` returns the cached value when the key is
present (no vectorization work, cache unchanged); otherwise it runs the
pipeline exactly once and stores the result under `(ch, r)`; and a
second call on the resulting cache performs zero vectorization work and
returns a value equal to the first call's result with the cache
unchanged. -/
theorem glyph_cache_correct (c : GlyphCache) (ch : Char) (r : Nat)
    (v : Metrics × GlyphGeometry) (c' : GlyphCache) (n : Nat)
    (hcall : c.glyph ch r = some (v, c', n)) :
    (∀ v₀, c.geometry (ch, r) = some v₀ → v = v₀ ∧ c' = c ∧ n = 0) ∧
    (c.geometry (ch, r) = none →
      c.vectorizeGlyph ch r = some v ∧ n = 1 ∧ c'.geometry (ch, r) = some v) ∧
    c'.glyph ch r = some (v, c', 0) := by
  cases hg : c.geometry (ch, r) with
  | some v₀ =>
    rw [glyph_hit c ch r v₀ hg] at hcall
    simp only [Option.some.injEq, Prod.mk.injEq] at hcall
    obtain ⟨hv, hc, hn⟩ := hcall
    refine ⟨?_, ?_, ?_⟩
    · intro v₁ hv₁
      exact ⟨hv.symm.trans (Option.some.inj hv₁), hc.symm, hn.symm⟩
    · intro hnone
      exact Option.noConfusion hnone
    · rw [← hc, glyph_hit c ch r v₀ hg, hv]
  | none =>
    cases hvz : c.vectorizeGlyph ch r with
    | none =>
      rw [glyph_miss_none c ch r hg hvz] at hcall
      exact Option.noConfusion hcall
    | some v₁ =>
      rw [glyph_miss c ch r v₁ hg hvz] at hcall
      simp only [Option.some.injEq, Prod.mk.injEq] at hcall
      obtain ⟨hv, hc, hn⟩ := hcall
      have hc' : c'.geometry (ch, r) = some v := by
        rw [← hc, ← hv]
        simp
      refine ⟨?_, ?_, ?_⟩
      · intro v₂ hv₂
        exact Option.noConfusion hv₂
      · intro _
        exact ⟨congrArg some hv, hn.symm, hc'⟩
      · rw [glyph_hit c' ch r v hc']

/-- A concrete mock font whose rasterizer always returns a 1×1 solid
bitmap. -/
def witFont : Font := ⟨fun _ _ => (⟨1, 1⟩, [1])⟩

/-- A fresh glyph cache over `witFont`. -/
def witCache : GlyphCache := GlyphCache.ofFont witFont

/-- The value the pipeline computes for `witFont`'s bitmap. -/
def witVal : Metrics × GlyphGeometry := (⟨1, 1⟩, ⟨[], []⟩)

/-- The cache after the first `glyph 'A' 64` call on `witCache`. -/
def witCache' : GlyphCache :=
  ⟨witCache.font, fun k => if k = ('A', 64) then some witVal else witCache.geometry k⟩

/-- Witness for C4: the first call on the fresh cache vectorizes once
and stores the value; the second call does no work and returns the same
value with the cache unchanged. -/
theorem glyph_cache_correct_witness :
    witCache.glyph 'A' 64 = some (witVal, witCache', 1) ∧
      witCache'.glyph 'A' 64 = some (witVal, witCache', 0) :=
  ⟨rfl, (glyph_cache_correct witCache 'A' 64 witVal witCache' 1 rfl).2.2⟩

/-- C9: `(ch, r1)` and `(ch, r2)` are distinct cache keys for
`r1 ≠ r2`, and a `glyph` call for one key leaves the cached value of
every other key untouched. -/
theorem cache_key_independence (ch : Char) (r1 r2 : Nat) (hr : r1 ≠ r2)
    (c : GlyphCache) (v : Metrics × GlyphGeometry) (c' : GlyphCache) (n : Nat)
    (hcall : c.glyph ch r1 = some (v, c', n)) :
    ((ch, r1) : Char × Nat) ≠ (ch, r2) ∧
      ∀ k : Char × Nat, k ≠ (ch, r1) → c'.geometry k = c.geometry k := by
  constructor
  · intro h
    exact hr (congrArg Prod.snd h)
  · unfold GlyphCache.glyph at hcall
    cases hg : c.geometry (ch, r1) with
    | some v₀ =>
      rw [hg] at hcall
      simp only [Option.some.injEq, Prod.mk.injEq] at hcall
      rw [hcall.2.1]
      exact fun k _ => rfl
    | none =>
      rw [hg] at hcall
      have hcall' : (match c.vectorizeGlyph ch r1 with
          | none => none
          | some v =>
            some (v, (⟨c.font, fun k => if k = (ch, r1) then some v else c.geometry k⟩
              : GlyphCache), 1))
          = some (v, c', n) := hcall
      cases hvz : c.vectorizeGlyph ch r1 with
      | none => rw [hvz] at hcall'; cases hcall'
      | some v₁ =>
        rw [hvz] at hcall'
        simp only [Option.some.injEq, Prod.mk.injEq] at hcall'
        intro k hk
        rw [← hcall'.2.1]
        simp [hk]

/-- Witness for C9: the keys ('A', 64) and ('A', 128) are distinct,
and the call that populated ('A', 64) left ('A', 128) untouched. -/
theorem cache_key_independence_witness :
    (( ('A', 64) : Char × Nat) ≠ ('A', 128)) ∧
      witCache'.geometry ('A', 128) = witCache.geometry ('A', 128) :=
  ⟨(cache_key_independence 'A' 64 128 (by decide) witCache witVal witCache' 1 rfl).1,
    (cache_key_independence 'A' 64 128 (by decide) witCache witVal witCache' 1 rfl).2
      ('A', 128) (by decide)⟩

/-! ### Font cache and the drawing glue -/

/-- Embedding of `Fonts<G>`: the `HashMap<G, GlyphCache>` as a
function map. -/
def Fonts (G : Type) : Type := G → Option GlyphCache

/-- `Fonts::get`. -/
def Fonts.get {G : Type} (fonts : Fonts G) (id : G) : Option GlyphCache :=
  fonts id

/-- Embedding of `Fonts::load`.  The fontdue parser `Font::from_bytes`
is an external collaborator (not under `src/`), abstracted as the
`parse` parameter.  As in the source, `?` propagates a parse error
before the `insert` runs; on success the entry for `id` is
inserted/replaced with a fresh glyph cache.  The pair returns the
call's result together with the resulting map. -/
def Fonts.load {G : Type} [DecidableEq G] (parse : List Nat → Except String Font)
    (fonts : Fonts G) (id : G) (data : List Nat) :
    Except String Unit × Fonts G :=
  match parse data with
  | Except.error e => (Except.error e, fonts)
  | Except.ok f =>
    (Except.ok (),
      fun k => if k = id then some (GlyphCache.ofFont f) else fonts k)

/-- C5: `load(font_id, bytes)` returns the parse error when the bytes
are not a valid font and leaves the font map (in particular the entry
for `font_id`) unchanged; on success it inserts/replaces the entry for
`font_id` with a fresh glyph cache whose geometry map is empty, leaving
every other entry unchanged. -/
theorem load_spec {G : Type} [DecidableEq G] (parse : List Nat → Except String Font)
    (fonts : Fonts G) (id : G) (data : List Nat) :
    (∀ e, parse data = Except.error e →
      Fonts.load parse fonts id data = (Except.error e, fonts)) ∧
    (∀ f, parse data = Except.ok f →
      (Fonts.load parse fonts id data).1 = Except.ok () ∧
      (Fonts.load parse fonts id data).2.get id = some (GlyphCache.ofFont f) ∧
      (∀ k, (GlyphCache.ofFont f).geometry k = none) ∧
      (∀ k, k ≠ id → (Fonts.load parse fonts id data).2.get k = fonts.get k)) := by
  constructor
  · intro e he
    unfold Fonts.load
    rw [he]
  · intro f hf
    refine ⟨?_, ?_, fun k => rfl, ?_⟩
    · unfold Fonts.load
      rw [hf]
    · unfold Fonts.load Fonts.get
      rw [hf]
      simp
    · intro k hk
      unfold Fonts.load Fonts.get
      rw [hf]
      simp [hk]

/-- A parser that rejects every byte buffer. -/
def parseFail : List Nat → Except String Font := fun _ => Except.error "malformed font"

/-- A parser that accepts every byte buffer, yielding `witFont`. -/
def parseOk : List Nat → Except String Font := fun _ => Except.ok witFont

/-- The empty font map over `Nat` font ids. -/
def emptyFonts : Fonts Nat := fun _ => none

/-- Witness for C5: a failing parse returns the error and leaves the
map unchanged; a successful parse installs a fresh cache with an empty
geometry map. -/
theorem load_spec_witness :
    Fonts.load parseFail emptyFonts 0 [1, 2, 3]
        = (Except.error "malformed font", emptyFonts) ∧
      (Fonts.load parseOk emptyFonts 0 [1, 2, 3]).2.get 0
        = some (GlyphCache.ofFont witFont) ∧
      (GlyphCache.ofFont witFont).geometry ('A', 64) = none :=
  ⟨(load_spec parseFail emptyFonts 0 [1, 2, 3]).1 "malformed font" rfl,
    ((load_spec parseOk emptyFonts 0 [1, 2, 3]).2 witFont rfl).2.1,
    ((load_spec parseOk emptyFonts 0 [1, 2, 3]).2 witFont rfl).2.2.1 ('A', 64)⟩

/-- The variants of `DrawType` that participate in text drawing.
(`Regular` and `Irregular` build non-text meshes from floating-point
trigonometry and user mesh ids; they never reference a font and are
outside the font claims, so they are not modelled.) -/
inductive DrawTy (G : Type) where
  | Empty : DrawTy G
  | Character (ch : Char) (resolution : Nat) (font_id : G) : DrawTy G

/-- Embedding of `DrawType::vertices_indices` for the modelled
variants: `Empty` yields empty buffers; `Character` evaluates
`fonts[font_id].glyph(ch, resolution)` — the `Index` impl for `Fonts`
`expect`s, so a missing font id is a panic, modelled as `none`. -/
def verticesIndices {G : Type} (fonts : Fonts G) :
    DrawTy G → Option (List Pixel × List Nat)
  | DrawTy.Empty => some ([], [])
  | DrawTy.Character ch r id =>
    match fonts.get id with
    | none => none
    | some cache =>
      match cache.glyph ch r with
      | none => none
      | some (v, _, _) => some (v.2.vertices, v.2.indices)

/-- Embedding of the font handling of `Drawer::text`: when the font id
has no entry the draw substitutes a single `DrawType::Empty` item;
otherwise one `Character` item per laid-out glyph.  The fontdue
`Layout` collaborator is abstracted as the `layout` list of characters
(the per-glyph offsets it also produces feed only the floating-point
transform, not the draw type). -/
def textDraw {G : Type} (fonts : Fonts G) (id : G) (resolution : Nat)
    (layout : List Char) : List (DrawTy G) :=
  match fonts.get id with
  | none => [DrawTy.Empty]
  | some _ => layout.map (fun ch => DrawTy.Character ch resolution id)

/-- Counterexample to C6 as stated: a single-character draw request
(`Drawer::character` builds a `DrawType::Character` without checking
font presence) whose font id has no loaded entry panics when its
buffers are built — `vertices_indices` indexes `fonts[font_id]`, whose
`Index` impl `expect`s — instead of substituting an empty draw. -/
theorem missing_font_counterexample :
    verticesIndices (fun _ => none : Fonts Unit) (DrawTy.Character 'A' 64 ())
      = none := rfl

/-- C6 amended: a `text` draw request referencing a font id with no
loaded entry substitutes a single no-op `Empty` draw item and does not
panic (and `Empty` buffers build fine), but building buffers for a
single-character draw request with a missing font id panics in the
`Fonts` index operation. -/
theorem missing_font_behaviour {G : Type} (fonts : Fonts G) (id : G)
    (hmiss : fonts.get id = none) :
    (∀ resolution layout, textDraw fonts id resolution layout = [DrawTy.Empty]) ∧
    (∀ ch r, verticesIndices fonts (DrawTy.Character ch r id) = none) ∧
    verticesIndices fonts DrawTy.Empty = some ([], []) := by
  refine ⟨?_, ?_, rfl⟩
  · intro resolution layout
    unfold textDraw
    rw [hmiss]
  · intro ch r
    show (match fonts.get id with
      | none => none
      | some cache =>
        match cache.glyph ch r with
        | none => none
        | some (v, _, _) => some (v.2.vertices, v.2.indices)) = none
    rw [hmiss]

/-- Witness for C6 amended, on the empty font map. -/
theorem missing_font_behaviour_witness :
    textDraw (fun _ => none : Fonts Unit) () 64 ['h', 'i'] = [DrawTy.Empty] ∧
      verticesIndices (fun _ => none : Fonts Unit) (DrawTy.Character 'B' 32 ())
        = none :=
  ⟨(missing_font_behaviour (fun _ => none : Fonts Unit) () rfl).1 64 ['h', 'i'],
    (missing_font_behaviour (fun _ => none : Fonts Unit) () rfl).2.1 'B' 32⟩

/-! ### The solid square bitmap -/

lemma solid_getPx (n x y : Nat) (hx : x < n) (hy : y < n) :
    getPx (solidBitmap n) (x, y) = true := by
  unfold getPx solidBitmap
  have hlt : y * n + x < n * n := by
    calc y * n + x < y * n + n := by omega
    _ = (y + 1) * n := by ring
    _ ≤ n * n := Nat.mul_le_mul_right _ (by omega)
  rw [List.getD_eq_getElem _ _ (by simpa using hlt)]
  simp

lemma solid_offNeighbor (n x y : Nat) (dx dy : Int) :
    offNeighbor (solidBitmap n) (x, y) dx dy
      = ! decide (0 ≤ (x : Int) + dx ∧ (x : Int) + dx < (n : Int) ∧
          0 ≤ (y : Int) + dy ∧ (y : Int) + dy < (n : Int)) := by
  simp only [offNeighbor, solidBitmap]
  split
  case isTrue h =>
    have hx' : (((x : Int) + dx).toNat) < n := by omega
    have hy' : (((y : Int) + dy).toNat) < n := by omega
    have := solid_getPx n _ _ hx' hy'
    unfold solidBitmap at this
    rw [this, decide_eq_true h]
  case isFalse h =>
    rw [decide_eq_false h]
    rfl

lemma solid_off_l (n x y : Nat) (hx : x < n) (hy : y < n) :
    offNeighbor (solidBitmap n) (x, y) (-1) 0 = decide (x = 0) := by
  rw [solid_offNeighbor]
  by_cases h : x = 0
  · rw [decide_eq_false (show ¬ _ by omega), decide_eq_true h]
    rfl
  · rw [decide_eq_true (show _ ∧ _ ∧ _ ∧ _ by omega), decide_eq_false h]
    rfl

lemma solid_off_r (n x y : Nat) (hx : x < n) (hy : y < n) :
    offNeighbor (solidBitmap n) (x, y) 1 0 = decide (x = n - 1) := by
  rw [solid_offNeighbor]
  by_cases h : x = n - 1
  · rw [decide_eq_false (show ¬ _ by omega), decide_eq_true h]
    rfl
  · rw [decide_eq_true (show _ ∧ _ ∧ _ ∧ _ by omega), decide_eq_false h]
    rfl

lemma solid_off_t (n x y : Nat) (hx : x < n) (hy : y < n) :
    offNeighbor (solidBitmap n) (x, y) 0 (-1) = decide (y = 0) := by
  rw [solid_offNeighbor]
  by_cases h : y = 0
  · rw [decide_eq_false (show ¬ _ by omega), decide_eq_true h]
    rfl
  · rw [decide_eq_true (show _ ∧ _ ∧ _ ∧ _ by omega), decide_eq_false h]
    rfl

lemma solid_off_b (n x y : Nat) (hx : x < n) (hy : y < n) :
    offNeighbor (solidBitmap n) (x, y) 0 1 = decide (y = n - 1) := by
  rw [solid_offNeighbor]
  by_cases h : y = n - 1
  · rw [decide_eq_false (show ¬ _ by omega), decide_eq_true h]
    rfl
  · rw [decide_eq_true (show _ ∧ _ ∧ _ ∧ _ by omega), decide_eq_false h]
    rfl

lemma solid_off_tl (n x y : Nat) (hx : x < n) (hy : y < n) :
    offNeighbor (solidBitmap n) (x, y) (-1) (-1) = decide (x = 0 ∨ y = 0) := by
  rw [solid_offNeighbor]
  by_cases h : x = 0 ∨ y = 0
  · rw [decide_eq_false (show ¬ _ by omega), decide_eq_true h]
    rfl
  · rw [decide_eq_true (show _ ∧ _ ∧ _ ∧ _ by omega), decide_eq_false h]
    rfl

lemma solid_off_tr (n x y : Nat) (hx : x < n) (hy : y < n) :
    offNeighbor (solidBitmap n) (x, y) 1 (-1) = decide (x = n - 1 ∨ y = 0) := by
  rw [solid_offNeighbor]
  by_cases h : x = n - 1 ∨ y = 0
  · rw [decide_eq_false (show ¬ _ by omega), decide_eq_true h]
    rfl
  · rw [decide_eq_true (show _ ∧ _ ∧ _ ∧ _ by omega), decide_eq_false h]
    rfl

lemma solid_off_bl (n x y : Nat) (hx : x < n) (hy : y < n) :
    offNeighbor (solidBitmap n) (x, y) (-1) 1 = decide (x = 0 ∨ y = n - 1) := by
  rw [solid_offNeighbor]
  by_cases h : x = 0 ∨ y = n - 1
  · rw [decide_eq_false (show ¬ _ by omega), decide_eq_true h]
    rfl
  · rw [decide_eq_true (show _ ∧ _ ∧ _ ∧ _ by omega), decide_eq_false h]
    rfl

lemma solid_off_br (n x y : Nat) (hx : x < n) (hy : y < n) :
    offNeighbor (solidBitmap n) (x, y) 1 1 = decide (x = n - 1 ∨ y = n - 1) := by
  rw [solid_offNeighbor]
  by_cases h : x = n - 1 ∨ y = n - 1
  · rw [decide_eq_false (show ¬ _ by omega), decide_eq_true h]
    rfl
  · rw [decide_eq_true (show _ ∧ _ ∧ _ ∧ _ by omega), decide_eq_false h]
    rfl

/-- On the solid square of size at least 5, the boundary
classification holds exactly on the outer ring minus its four
corners. -/
lemma solid_edgeCond_iff (n x y : Nat) (hx : x < n) (hy : y < n) (hn : 5 ≤ n) :
    edgeCond (solidBitmap n) (x, y) ↔
      ((x = 0 ∨ x = n - 1 ∨ y = 0 ∨ y = n - 1) ∧
        ¬ ((x = 0 ∨ x = n - 1) ∧ (y = 0 ∨ y = n - 1))) := by
  have hw : x < (solidBitmap n).width := hx
  have hh : y < (solidBitmap n).height := hy
  unfold edgeCond
  rw [← specEmptyCount_eq _ _ _ hw hh, ← specEmptyAdjCount_eq _ _ _ hw hh]
  simp only [specEmptyCount, specEmptyAdjCount, fullOffsets, adjOffsets,
    List.countP_cons, List.countP_nil,
    solid_off_l n x y hx hy, solid_off_r n x y hx hy,
    solid_off_t n x y hx hy, solid_off_b n x y hx hy,
    solid_off_tl n x y hx hy, solid_off_tr n x y hx hy,
    solid_off_bl n x y hx hy, solid_off_br n x y hx hy,
    decide_eq_true_eq]
  split_ifs <;> omega

/-- Interior pixels of the solid square have both counts zero. -/
lemma solid_interior_counts (n x y : Nat) (hx1 : 1 ≤ x) (hx2 : x ≤ n - 2)
    (hy1 : 1 ≤ y) (hy2 : y ≤ n - 2) (hn : 5 ≤ n) :
    empty_count (solidBitmap n) (x, y) = 0 ∧
      empty_adj_count (solidBitmap n) (x, y) = 0 := by
  have hx : x < n := by omega
  have hy : y < n := by omega
  have hw : x < (solidBitmap n).width := hx
  have hh : y < (solidBitmap n).height := hy
  rw [← specEmptyCount_eq _ _ _ hw hh, ← specEmptyAdjCount_eq _ _ _ hw hh]
  simp only [specEmptyCount, specEmptyAdjCount, fullOffsets, adjOffsets,
    List.countP_cons, List.countP_nil,
    solid_off_l n x y hx hy, solid_off_r n x y hx hy,
    solid_off_t n x y hx hy, solid_off_b n x y hx hy,
    solid_off_tl n x y hx hy, solid_off_tr n x y hx hy,
    solid_off_bl n x y hx hy, solid_off_br n x y hx hy,
    decide_eq_true_eq]
  split_ifs <;> omega

lemma edgePixels_coords (bmp : Bitmap)
    (hlen : bmp.bytes.length = bmp.width * bmp.height) (p : Pixel)
    (hp : p ∈ edgePixels bmp) : p.1 < bmp.width ∧ p.2 < bmp.height := by
  rw [edgePixels_eq_filter] at hp
  obtain ⟨i, hi, hpix⟩ := List.mem_map.mp hp
  obtain ⟨hir, _⟩ := List.mem_filter.mp hi
  have hlt : i < bmp.width * bmp.height := hlen ▸ List.mem_range.mp hir
  have hwpos : 0 < bmp.width := by
    rcases Nat.eq_zero_or_pos bmp.width with h | h
    · rw [h] at hlt
      omega
    · exact h
  rw [← hpix]
  unfold pix
  refine ⟨Nat.mod_lt _ hwpos, ?_⟩
  rw [Nat.div_lt_iff_lt_mul hwpos]
  have : bmp.width * bmp.height = bmp.height * bmp.width := Nat.mul_comm _ _
  omega

/-- Counterexample to C3 as stated: in the fully solid 5×5 bitmap the
corner (0, 0) belongs to the outer ring, yet the edge extractor does
not classify it as a boundary pixel — its `empty_count` is 5 (outside
[2, 4]) and its `empty_adj_count` is 2 (not 1), so both disjuncts
fail. -/
theorem solid_ring_counterexample :
    (0, 0) ∉ edgePixels (solidBitmap 5) ∧
      empty_count (solidBitmap 5) (0, 0) = 5 ∧
      empty_adj_count (solidBitmap 5) (0, 0) = 2 := by decide

/-- C3 amended: for every fully solid square bitmap of size n ≥ 5, the
edge extractor classifies exactly the outer ring minus its four
corners as boundary pixels; in particular no interior pixel is
classified as boundary, and interior pixels have `empty_count = 0` and
`empty_adj_count = 0`. -/
theorem solid_square_boundary (n : Nat) (hn : 5 ≤ n) (p : Pixel) :
    (p ∈ edgePixels (solidBitmap n) ↔
      (p.1 < n ∧ p.2 < n ∧
        (p.1 = 0 ∨ p.1 = n - 1 ∨ p.2 = 0 ∨ p.2 = n - 1) ∧
        ¬ ((p.1 = 0 ∨ p.1 = n - 1) ∧ (p.2 = 0 ∨ p.2 = n - 1)))) ∧
    (1 ≤ p.1 → p.1 ≤ n - 2 → 1 ≤ p.2 → p.2 ≤ n - 2 →
      p ∉ edgePixels (solidBitmap n) ∧
      empty_count (solidBitmap n) p = 0 ∧
      empty_adj_count (solidBitmap n) p = 0) := by
  obtain ⟨x, y⟩ := p
  have hlen : (solidBitmap n).bytes.length
      = (solidBitmap n).width * (solidBitmap n).height := by
    simp [solidBitmap]
  constructor
  · constructor
    · intro hmem
      have hco := edgePixels_coords _ hlen _ hmem
      have hx : x < n := hco.1
      have hy : y < n := hco.2
      have hcond := (mem_edgePixels_iff (solidBitmap n) (x, y) hx hy hlen).mp hmem
      have hring := (solid_edgeCond_iff n x y hx hy hn).mp hcond.2
      exact ⟨hx, hy, hring.1, hring.2⟩
    · rintro ⟨hx, hy, hring, hcorner⟩
      refine (mem_edgePixels_iff (solidBitmap n) (x, y) hx hy hlen).mpr
        ⟨solid_getPx n x y hx hy, ?_⟩
      exact (solid_edgeCond_iff n x y hx hy hn).mpr ⟨hring, hcorner⟩
  · intro hx1 hx2 hy1 hy2
    have hx : x < n := by omega
    have hy : y < n := by omega
    have hcounts := solid_interior_counts n x y hx1 hx2 hy1 hy2 hn
    refine ⟨?_, hcounts.1, hcounts.2⟩
    intro hmem
    have hcond := ((mem_edgePixels_iff (solidBitmap n) (x, y) hx hy hlen).mp hmem).2
    unfold edgeCond at hcond
    rw [hcounts.1, hcounts.2] at hcond
    rcases hcond with ⟨h2, _⟩ | h1
    · omega
    · omega

/-- Witness for C3 amended on the 5×5 solid bitmap: the edge pixel
(1, 0) and the interior pixel (2, 2). -/
theorem solid_square_boundary_witness :
    (((1, 0) : Pixel) ∈ edgePixels (solidBitmap 5) ↔
      ((1 : Nat) < 5 ∧ (0 : Nat) < 5 ∧
        ((1 : Nat) = 0 ∨ (1 : Nat) = 5 - 1 ∨ (0 : Nat) = 0 ∨ (0 : Nat) = 5 - 1) ∧
        ¬ (((1 : Nat) = 0 ∨ (1 : Nat) = 5 - 1) ∧
          ((0 : Nat) = 0 ∨ (0 : Nat) = 5 - 1)))) ∧
      ((2, 2) : Pixel) ∉ edgePixels (solidBitmap 5) ∧
      empty_count (solidBitmap 5) (2, 2) = 0 ∧
      empty_adj_count (solidBitmap 5) (2, 2) = 0 :=
  ⟨(solid_square_boundary 5 (by decide) (1, 0)).1,
    (solid_square_boundary 5 (by decide) (2, 2)).2
      (by decide) (by decide) (by decide) (by decide)⟩

end Kule
